import Mathlib

/-!
Shallow embedding of the mDNS responder's service registry and façade
(`src/services.rs`, `src/lib.rs`) and proofs of the specified properties.

Modelling conventions:
- DNS names (`dns_parser::Name`) are modelled as `String`; the code only
  clones and compares them for equality.
- `HashMap<usize, ServiceData>` / `HashMap<Name, usize>` are modelled as
  association lists with unique keys; `MultiMap<Name, usize>` as an
  association list from names to lists of ids.  The operations below
  mirror the map semantics (replace on insert, remove the unique binding)
  under the unique-keys discipline a `HashMap` guarantees.
- A Rust `panic!` / failed `expect` / failed `assert_eq!` is modelled by
  returning `none`; operations that cannot panic are total functions.
- The random id drawn by `ServicesInner::register` (a loop that redraws
  while the candidate collides with a key of `by_id`) is modelled by
  passing the chosen id explicitly together with the loop's
  postcondition `lookupA by_id id = none` where a claim needs it.
-/

namespace Mdns

/-- First-match lookup in an association list (model of `HashMap::get`). -/
def lookupA {α β : Type} [DecidableEq α] : List (α × β) → α → Option β
  | [], _ => none
  | (k, v) :: rest, a => if k = a then some v else lookupA rest a

/-- Insert-or-replace (model of `HashMap::insert`): replaces the first
binding of the key, or appends a new binding. -/
def insertA {α β : Type} [DecidableEq α] : List (α × β) → α → β → List (α × β)
  | [], k, v => [(k, v)]
  | (k', v') :: rest, k, v =>
    if k' = k then (k, v) :: rest else (k', v') :: insertA rest k v

/-- Remove the first binding of a key (model of `HashMap::remove`). -/
def eraseA {α β : Type} [DecidableEq α] : List (α × β) → α → List (α × β)
  | [], _ => []
  | (k', v') :: rest, k => if k' = k then rest else (k', v') :: eraseA rest k

/-- Data for a single mDNS service (`ServiceData` in `services.rs`). -/
structure ServiceData where
  name : String
  typ : String
  port : Nat
  txt : List Nat
deriving DecidableEq, Repr

/-- The internal service registry (`ServicesInner` in `services.rs`). -/
structure ServicesInner where
  hostname : String
  by_id : List (Nat × ServiceData)
  by_type : List (String × List Nat)
  by_name : List (String × Nat)
deriving DecidableEq, Repr

/-- `MultiMap::insert`: push the id onto the vec for the key, creating a
new bucket when the key is absent. -/
def minsert : List (String × List Nat) → String → Nat → List (String × List Nat)
  | [], k, id => [(k, [id])]
  | (k', b) :: rest, k, id =>
    if k' = k then (k', b ++ [id]) :: rest else (k', b) :: minsert rest k id

/-- The `by_type` scrub in `ServicesInner::unregister`: if the key has a
bucket, retain only the entries different from `id`; otherwise leave the
map unchanged (`get_vec_mut` returns `None`). -/
def mretain : List (String × List Nat) → String → Nat → List (String × List Nat)
  | [], _, _ => []
  | (k', b) :: rest, k, id =>
    if k' = k then (k', b.filter (· ≠ id)) :: rest else (k', b) :: mretain rest k id

/-- `ServicesInner::new`: empty indices. -/
def ServicesInner.new (hostname : String) : ServicesInner :=
  { hostname := hostname, by_id := [], by_type := [], by_name := [] }

/-- `ServicesInner::find_by_name`: look the name up in `by_name`, then the
id up in `by_id`. -/
def ServicesInner.find_by_name (s : ServicesInner) (n : String) : Option ServiceData :=
  (lookupA s.by_name n).bind (fun id => lookupA s.by_id id)

/-- The collection performed by the `FindByType` iterator: each id of the
bucket is looked up in `by_id`; a `None` lookup ends the iteration
(`Iterator::next` returning `None` terminates a `collect`). -/
def collectByType (s : ServicesInner) : List Nat → List ServiceData
  | [] => []
  | id :: rest =>
    match lookupA s.by_id id with
    | none => []
    | some svc => svc :: collectByType s rest

/-- `ServicesInner::find_by_type`, fully collected: the bucket for the
type (empty when absent) fed through the `FindByType` iterator. -/
def ServicesInner.find_by_type (s : ServicesInner) (t : String) : List ServiceData :=
  collectByType s ((lookupA s.by_type t).getD [])

/-- The mutation performed by `ServicesInner::register` once the random
id has been drawn: insert into `by_type`, `by_name` and `by_id`. -/
def registerWith (s : ServicesInner) (svc : ServiceData) (id : Nat) : ServicesInner :=
  { s with
    by_type := minsert s.by_type svc.typ id
    by_name := insertA s.by_name svc.name id
    by_id := insertA s.by_id id svc }

/-- `ServicesInner::unregister`: remove from `by_id` (`expect` panics on an
unknown id, modelled as `none`); scrub the id from the `by_type` bucket of
the service's type; remove the name from `by_name` and assert the removed
binding was exactly `Some(id)` (assertion failure modelled as `none`). -/
def ServicesInner.unregister (s : ServicesInner) (id : Nat) :
    Option (ServiceData × ServicesInner) :=
  match lookupA s.by_id id with
  | none => none
  | some svc =>
    if lookupA s.by_name svc.name = some id then
      some (svc,
        { hostname := s.hostname
          by_id := eraseA s.by_id id
          by_type := mretain s.by_type svc.typ id
          by_name := eraseA s.by_name svc.name })
    else none

/-- One registry operation: a register (with the id the random-draw loop
settled on) or an unregister. -/
inductive Op where
  | reg (svc : ServiceData) (id : Nat)
  | unreg (id : Nat)
deriving DecidableEq, Repr

/-- Run a sequence of operations from a state.  A `reg` step carries the
random-id loop's postcondition (the id does not collide with `by_id`) and
the claims' standing hypothesis that instance names are pairwise distinct
(the name is not yet registered); an `unreg` step must not panic. -/
def runOps : ServicesInner → List Op → Option ServicesInner
  | s, [] => some s
  | s, Op.reg svc id :: rest =>
    if lookupA s.by_id id = none ∧ lookupA s.by_name svc.name = none then
      runOps (registerWith s svc id) rest
    else none
  | s, Op.unreg id :: rest =>
    match s.unregister id with
    | none => none
    | some (_, s') => runOps s' rest

/-- The ids handed out by the register operations of a trace, with the
service each was handed out for. -/
def regPairs : List Op → List (Nat × ServiceData)
  | [] => []
  | Op.reg svc id :: rest => (id, svc) :: regPairs rest
  | Op.unreg _ :: rest => regPairs rest

/-- The three-way index invariant as the specification states it: every
`by_id` entry is indexed by `by_name` and by its type's `by_type` bucket,
and every id referenced from `by_name` or from a `by_type` bucket is a key
of `by_id`. -/
def Invariant (s : ServicesInner) : Prop :=
  (∀ p ∈ s.by_id,
      lookupA s.by_name p.2.name = some p.1 ∧
      p.1 ∈ (lookupA s.by_type p.2.typ).getD []) ∧
  (∀ q ∈ s.by_name, (lookupA s.by_id q.2).isSome) ∧
  (∀ b ∈ s.by_type, ∀ id ∈ b.2, (lookupA s.by_id id).isSome)

/-- The name of the service registered under an id, when any. -/
def nameAt (s : ServicesInner) (id : Nat) : Option String :=
  (lookupA s.by_id id).map ServiceData.name

/-- The type of the service registered under an id, when any. -/
def typAt (s : ServicesInner) (id : Nat) : Option String :=
  (lookupA s.by_id id).map ServiceData.typ

/-- Keys of an association list are pairwise distinct. -/
def keysNodup {α β : Type} (l : List (α × β)) : Prop :=
  (l.map Prod.fst).Nodup

/-- The strengthened registry invariant maintained by register/unregister:
unique keys in the three indices, the specification's three-way invariant
with the back-references sharpened (`by_name` points at a service with
that exact name, `by_type` buckets hold ids of services of that exact
type), and duplicate-free buckets. -/
def StrongInv (s : ServicesInner) : Prop :=
  keysNodup s.by_id ∧ keysNodup s.by_name ∧ keysNodup s.by_type ∧
  (∀ p ∈ s.by_id,
      lookupA s.by_name p.2.name = some p.1 ∧
      p.1 ∈ (lookupA s.by_type p.2.typ).getD []) ∧
  (∀ q ∈ s.by_name, nameAt s q.2 = some q.1) ∧
  (∀ b ∈ s.by_type, ∀ id ∈ b.2, typAt s id = some b.1) ∧
  (∀ b ∈ s.by_type, b.2.Nodup)

/-- `build_txt_record`'s per-entry encoding (`lib.rs`): each entry becomes
one length byte followed by the entry's bytes; an entry longer than 255
bytes panics (modelled as `none`).  Entries are modelled as byte lists
(`str::as_bytes`). -/
def encodeEntries : List (List Nat) → Option (List Nat)
  | [] => some []
  | e :: rest =>
    if 255 < e.length then none
    else (encodeEntries rest).map (fun r => (e.length :: e) ++ r)

/-- `build_txt_record` (`lib.rs`): a single zero byte for an empty entry
list, otherwise the concatenation of the length-prefixed entries. -/
def build_txt_record (entries : List (List Nat)) : Option (List Nat) :=
  if entries.isEmpty then some [0] else encodeEntries entries

/-- An FSM command (`fsm::Command` as used by `lib.rs`): an unsolicited
announcement carrying a service, a TTL and the include-address-records
flag, or a shutdown. -/
inductive Command where
  | sendUnsolicited (svc : ServiceData) (ttl : Nat) (include_ip : Bool)
  | shutdown
deriving DecidableEq, Repr

/-- `CommandSender`: one sender per FSM; each FSM's channel is modelled by
the ordered list of commands it has received. -/
structure CommandSender where
  channels : List (List Command)
deriving DecidableEq, Repr

/-- `CommandSender::send`: clone the command to every FSM channel. -/
def CommandSender.send (cs : CommandSender) (cmd : Command) : CommandSender :=
  ⟨cs.channels.map (fun ch => ch ++ [cmd])⟩

/-- `CommandSender::send_unsolicited`. -/
def CommandSender.send_unsolicited (cs : CommandSender) (svc : ServiceData)
    (ttl : Nat) (include_ip : Bool) : CommandSender :=
  cs.send (Command.sendUnsolicited svc ttl include_ip)

/-- Default record TTL (`DEFAULT_TTL` in `lib.rs`). -/
def DEFAULT_TTL : Nat := 60

/-- The responder façade state touched by `Responder::register` and
`Service::drop`: the shared registry and the command sender. -/
structure Responder where
  services : ServicesInner
  commands : CommandSender
deriving DecidableEq, Repr

/-- `Responder::register`: encode the TXT entries (a too-long entry
panics, modelled as `none`, before any command is sent and before the
registry is touched), build the `ServiceData` with
`typ = "<type>.local"` and `name = "<name>.<type>.local"`, send the
announce command (`ttl = DEFAULT_TTL`, `include_ip = true`) to every FSM,
then insert into the registry under the id the random-draw loop settled
on (passed explicitly). -/
def Responder.register (r : Responder) (svc_type svc_name : String)
    (port : Nat) (txt : List (List Nat)) (id : Nat) :
    Option (Responder × Nat) :=
  match build_txt_record txt with
  | none => none
  | some txtBytes =>
    let svc : ServiceData :=
      { typ := svc_type ++ ".local"
        name := svc_name ++ "." ++ svc_type ++ ".local"
        port := port
        txt := txtBytes }
    let commands := r.commands.send_unsolicited svc DEFAULT_TTL true
    some ({ services := registerWith r.services svc id, commands := commands }, id)

/-- `Service::drop`: unregister the handle's id (panicking, modelled as
`none`, if it is unknown or the name index is inconsistent) and send the
goodbye command (`ttl = 0`, `include_ip = false`) to every FSM. -/
def dropService (services : ServicesInner) (cs : CommandSender) (id : Nat) :
    Option (ServicesInner × CommandSender) :=
  match services.unregister id with
  | none => none
  | some (svc, s') => some (s', cs.send_unsolicited svc 0 false)

/-! Association-list lemmas. -/

theorem lookupA_eq_none {α β : Type} [DecidableEq α] (l : List (α × β)) (k : α) :
    lookupA l k = none ↔ ∀ p ∈ l, p.1 ≠ k := by
  induction l with
  | nil => simp [lookupA]
  | cons hd tl ih =>
    obtain ⟨k', v⟩ := hd
    by_cases h : k' = k
    · subst h; simp [lookupA]
    · simp [lookupA, h, ih]

theorem lookupA_mem {α β : Type} [DecidableEq α] {l : List (α × β)} {k : α} {v : β}
    (h : lookupA l k = some v) : (k, v) ∈ l := by
  induction l with
  | nil => simp [lookupA] at h
  | cons hd tl ih =>
    obtain ⟨k', v'⟩ := hd
    by_cases hk : k' = k
    · subst hk
      simp [lookupA] at h
      subst h
      exact List.mem_cons_self _ _
    · simp [lookupA, hk] at h
      exact List.mem_cons_of_mem _ (ih h)

theorem mem_lookupA {α β : Type} [DecidableEq α] {l : List (α × β)} {k : α} {v : β}
    (hnd : keysNodup l) (h : (k, v) ∈ l) : lookupA l k = some v := by
  induction l with
  | nil => simp at h
  | cons hd tl ih =>
    obtain ⟨k', v'⟩ := hd
    rcases List.mem_cons.mp h with h0 | h0
    · obtain ⟨h1, h2⟩ := Prod.mk.injEq .. ▸ h0
      simp [lookupA, h1.symm, h2.symm]
    · have hk : k' ≠ k := by
        intro he
        subst he
        have : k' ∈ tl.map Prod.fst := List.mem_map.mpr ⟨(k', v), h0, rfl⟩
        exact (List.nodup_cons.mp hnd).1 this
      have hnd' : keysNodup tl := (List.nodup_cons.mp hnd).2
      simp [lookupA, hk, ih hnd' h0]

theorem lookupA_append_left {α β : Type} [DecidableEq α] {l l' : List (α × β)} {k : α} {v : β}
    (h : lookupA l k = some v) : lookupA (l ++ l') k = some v := by
  induction l with
  | nil => simp [lookupA] at h
  | cons hd tl ih =>
    obtain ⟨k', v'⟩ := hd
    by_cases hk : k' = k
    · simp_all [lookupA]
    · simp [lookupA, hk] at h ⊢
      exact ih h

theorem lookupA_append_right {α β : Type} [DecidableEq α] {l : List (α × β)} (l' : List (α × β))
    {k : α} (h : lookupA l k = none) : lookupA (l ++ l') k = lookupA l' k := by
  induction l with
  | nil => simp
  | cons hd tl ih =>
    obtain ⟨k', v'⟩ := hd
    by_cases hk : k' = k
    · simp [lookupA, hk] at h
    · simp [lookupA, hk] at h ⊢
      exact ih h

theorem insertA_of_absent {α β : Type} [DecidableEq α] {l : List (α × β)} {k : α} (v : β)
    (h : lookupA l k = none) : insertA l k v = l ++ [(k, v)] := by
  induction l with
  | nil => simp [insertA]
  | cons hd tl ih =>
    obtain ⟨k', v'⟩ := hd
    by_cases hk : k' = k
    · simp [lookupA, hk] at h
    · simp [lookupA, hk] at h
      simp [insertA, hk, ih h]

theorem lookupA_insertA_self {α β : Type} [DecidableEq α] (l : List (α × β)) (k : α) (v : β) :
    lookupA (insertA l k v) k = some v := by
  induction l with
  | nil => simp [insertA, lookupA]
  | cons hd tl ih =>
    obtain ⟨k', v'⟩ := hd
    by_cases hk : k' = k
    · simp [insertA, hk, lookupA]
    · simp [insertA, hk, lookupA, ih]

theorem lookupA_insertA_ne {α β : Type} [DecidableEq α] (l : List (α × β)) {k q : α} (v : β)
    (h : q ≠ k) : lookupA (insertA l k v) q = lookupA l q := by
  have hkq : k ≠ q := Ne.symm h
  induction l with
  | nil => simp [insertA, lookupA, hkq]
  | cons hd tl ih =>
    obtain ⟨k', v'⟩ := hd
    by_cases hk : k' = k
    · subst hk
      simp [insertA, lookupA, hkq]
    · simp [insertA, hk, lookupA, ih]

theorem mem_insertA_cases {α β : Type} [DecidableEq α] {l : List (α × β)} {k : α} {v : β}
    {p : α × β} (h : p ∈ insertA l k v) : p = (k, v) ∨ p ∈ l := by
  induction l with
  | nil => simpa [insertA] using h
  | cons hd tl ih =>
    obtain ⟨k', v'⟩ := hd
    by_cases hk : k' = k
    · subst hk
      simp [insertA] at h
      rcases h with h0 | h0
      · exact Or.inl h0
      · exact Or.inr (List.mem_cons_of_mem _ h0)
    · simp [insertA, hk] at h
      rcases h with h0 | h0
      · exact Or.inr (h0 ▸ List.mem_cons_self _ _)
      · rcases ih h0 with h1 | h1
        · exact Or.inl h1
        · exact Or.inr (List.mem_cons_of_mem _ h1)

theorem keysNodup_insertA {α β : Type} [DecidableEq α] {l : List (α × β)} (k : α) (v : β)
    (h : keysNodup l) : keysNodup (insertA l k v) := by
  induction l with
  | nil => simp [insertA, keysNodup]
  | cons hd tl ih =>
    obtain ⟨k', v'⟩ := hd
    simp only [keysNodup, List.map_cons, List.nodup_cons] at h
    by_cases hk : k' = k
    · subst hk
      have hins : insertA ((k', v') :: tl) k' v = (k', v) :: tl := by simp [insertA]
      rw [hins]
      simp only [keysNodup, List.map_cons, List.nodup_cons]
      exact h
    · simp only [insertA, if_neg hk, keysNodup, List.map_cons, List.nodup_cons]
      refine ⟨?_, ih h.2⟩
      intro hmem
      rcases List.mem_map.mp hmem with ⟨p, hp, hfst⟩
      rcases mem_insertA_cases hp with h0 | h0
      · have h1 : p.1 = k := by rw [h0]
        have h2 : p.1 = k' := by simpa using hfst
        exact hk (h2.symm.trans h1)
      · exact h.1 (List.mem_map.mpr ⟨p, h0, hfst⟩)

theorem eraseA_sublist {α β : Type} [DecidableEq α] (l : List (α × β)) (k : α) :
    (eraseA l k).Sublist l := by
  induction l with
  | nil => simp [eraseA]
  | cons hd tl ih =>
    obtain ⟨k', v'⟩ := hd
    by_cases hk : k' = k
    · simp [eraseA, hk]
    · simpa [eraseA, hk] using ih

theorem keysNodup_eraseA {α β : Type} [DecidableEq α] {l : List (α × β)} (k : α)
    (h : keysNodup l) : keysNodup (eraseA l k) :=
  List.Nodup.sublist (List.Sublist.map Prod.fst (eraseA_sublist l k)) h

theorem lookupA_eraseA_self {α β : Type} [DecidableEq α] {l : List (α × β)} (k : α)
    (h : keysNodup l) : lookupA (eraseA l k) k = none := by
  induction l with
  | nil => simp [eraseA, lookupA]
  | cons hd tl ih =>
    obtain ⟨k', v'⟩ := hd
    simp only [keysNodup, List.map_cons, List.nodup_cons] at h
    by_cases hk : k' = k
    · subst hk
      rw [eraseA]
      simp only [if_pos rfl]
      rw [lookupA_eq_none]
      intro p hp hfst
      exact h.1 (List.mem_map.mpr ⟨p, hp, hfst⟩)
    · simp [eraseA, hk, lookupA, ih h.2]

theorem lookupA_eraseA_ne {α β : Type} [DecidableEq α] (l : List (α × β)) {k q : α}
    (h : q ≠ k) : lookupA (eraseA l k) q = lookupA l q := by
  induction l with
  | nil => simp [eraseA]
  | cons hd tl ih =>
    obtain ⟨k', v'⟩ := hd
    by_cases hk : k' = k
    · subst hk
      have hkq : k' ≠ q := Ne.symm h
      simp [eraseA, lookupA, hkq]
    · simp [eraseA, hk, lookupA, ih]

theorem mem_eraseA_of_mem {α β : Type} [DecidableEq α] {l : List (α × β)} {k : α}
    {p : α × β} (h : p ∈ eraseA l k) : p ∈ l :=
  List.Sublist.mem h (eraseA_sublist l k)

theorem mem_eraseA_nodup {α β : Type} [DecidableEq α] {l : List (α × β)} {k : α}
    {p : α × β} (hnd : keysNodup l) (h : p ∈ eraseA l k) : p ∈ l ∧ p.1 ≠ k := by
  refine ⟨mem_eraseA_of_mem h, ?_⟩
  intro hfst
  have := mem_lookupA (keysNodup_eraseA k hnd) (show (k, p.2) ∈ eraseA l k by
    obtain ⟨p1, p2⟩ := p
    simp only at hfst
    rwa [hfst] at h)
  rw [lookupA_eraseA_self k hnd] at this
  exact Option.noConfusion this

theorem eraseA_insertA {α β : Type} [DecidableEq α] {l : List (α × β)} {k : α} (v : β)
    (h : lookupA l k = none) : eraseA (insertA l k v) k = l := by
  induction l with
  | nil => simp [insertA, eraseA]
  | cons hd tl ih =>
    obtain ⟨k', v'⟩ := hd
    by_cases hk : k' = k
    · simp [lookupA, hk] at h
    · simp [lookupA, hk] at h
      simp [insertA, eraseA, hk, ih h]

/-! `minsert` and `mretain` lemmas. -/

theorem lookupA_minsert_self (m : List (String × List Nat)) (k : String) (id : Nat) :
    lookupA (minsert m k id) k = some ((lookupA m k).getD [] ++ [id]) := by
  induction m with
  | nil => simp [minsert, lookupA]
  | cons hd tl ih =>
    obtain ⟨k', b⟩ := hd
    by_cases hk : k' = k
    · subst hk
      simp [minsert, lookupA]
    · simp [minsert, hk, lookupA, ih]

theorem lookupA_minsert_ne (m : List (String × List Nat)) {k q : String} (id : Nat)
    (h : q ≠ k) : lookupA (minsert m k id) q = lookupA m q := by
  have hkq : k ≠ q := Ne.symm h
  induction m with
  | nil => simp [minsert, lookupA, hkq]
  | cons hd tl ih =>
    obtain ⟨k', b⟩ := hd
    by_cases hk : k' = k
    · subst hk
      simp [minsert, lookupA, hkq]
    · simp [minsert, hk, lookupA, ih]

theorem mem_minsert_cases {m : List (String × List Nat)} {k : String} {id : Nat}
    {p : String × List Nat} (h : p ∈ minsert m k id) :
    p ∈ m ∨ (∃ b, (k, b) ∈ m ∧ p = (k, b ++ [id])) ∨ p = (k, [id]) := by
  induction m with
  | nil => simpa [minsert] using h
  | cons hd tl ih =>
    obtain ⟨k', b⟩ := hd
    by_cases hk : k' = k
    · subst hk
      simp [minsert] at h
      rcases h with h0 | h0
      · exact Or.inr (Or.inl ⟨b, List.mem_cons_self _ _, h0⟩)
      · exact Or.inl (List.mem_cons_of_mem _ h0)
    · simp [minsert, hk] at h
      rcases h with h0 | h0
      · exact Or.inl (h0 ▸ List.mem_cons_self _ _)
      · rcases ih h0 with h1 | h1 | h1
        · exact Or.inl (List.mem_cons_of_mem _ h1)
        · rcases h1 with ⟨b0, hb0, hp⟩
          exact Or.inr (Or.inl ⟨b0, List.mem_cons_of_mem _ hb0, hp⟩)
        · exact Or.inr (Or.inr h1)

theorem keys_minsert (m : List (String × List Nat)) (k : String) (id : Nat) :
    (minsert m k id).map Prod.fst = m.map Prod.fst ∨
      (minsert m k id).map Prod.fst = m.map Prod.fst ++ [k] := by
  induction m with
  | nil => simp [minsert]
  | cons hd tl ih =>
    obtain ⟨k', b⟩ := hd
    by_cases hk : k' = k
    · subst hk
      simp [minsert]
    · rcases ih with h0 | h0 <;> simp [minsert, hk, h0]

theorem keysNodup_minsert {m : List (String × List Nat)} {k : String} (id : Nat)
    (h : keysNodup m) : keysNodup (minsert m k id) := by
  induction m with
  | nil => simp [minsert, keysNodup]
  | cons hd tl ih =>
    obtain ⟨k', b⟩ := hd
    simp only [keysNodup, List.map_cons, List.nodup_cons] at h
    by_cases hk : k' = k
    · subst hk
      have hins : minsert ((k', b) :: tl) k' id = (k', b ++ [id]) :: tl := by simp [minsert]
      rw [hins]
      simp only [keysNodup, List.map_cons, List.nodup_cons]
      exact h
    · simp only [minsert, if_neg hk, keysNodup, List.map_cons, List.nodup_cons]
      refine ⟨?_, ih h.2⟩
      intro hmem
      rcases keys_minsert tl k id with h0 | h0
      · rw [h0] at hmem
        exact h.1 hmem
      · rw [h0] at hmem
        rcases List.mem_append.mp hmem with h1 | h1
        · exact h.1 h1
        · simp at h1
          exact hk h1

theorem lookupA_mretain_self (m : List (String × List Nat)) (k : String) (id : Nat) :
    lookupA (mretain m k id) k = (lookupA m k).map (fun b => b.filter (· ≠ id)) := by
  induction m with
  | nil => simp [mretain, lookupA]
  | cons hd tl ih =>
    obtain ⟨k', b⟩ := hd
    by_cases hk : k' = k
    · subst hk
      simp [mretain, lookupA]
    · simp [mretain, hk, lookupA, ih]

theorem lookupA_mretain_ne (m : List (String × List Nat)) {k q : String} (id : Nat)
    (h : q ≠ k) : lookupA (mretain m k id) q = lookupA m q := by
  have hkq : k ≠ q := Ne.symm h
  induction m with
  | nil => simp [mretain, lookupA]
  | cons hd tl ih =>
    obtain ⟨k', b⟩ := hd
    by_cases hk : k' = k
    · subst hk
      simp [mretain, lookupA, hkq]
    · simp [mretain, hk, lookupA, ih]

theorem keys_mretain (m : List (String × List Nat)) (k : String) (id : Nat) :
    (mretain m k id).map Prod.fst = m.map Prod.fst := by
  induction m with
  | nil => simp [mretain]
  | cons hd tl ih =>
    obtain ⟨k', b⟩ := hd
    by_cases hk : k' = k
    · subst hk
      simp [mretain]
    · simp [mretain, hk, ih]

theorem keysNodup_mretain {m : List (String × List Nat)} (k : String) (id : Nat)
    (h : keysNodup m) : keysNodup (mretain m k id) := by
  rw [keysNodup, keys_mretain]
  exact h

theorem mem_mretain_nodup {m : List (String × List Nat)} {k : String} {id : Nat}
    {p : String × List Nat} (hnd : keysNodup m) (h : p ∈ mretain m k id) :
    (p ∈ m ∧ p.1 ≠ k) ∨ ∃ b, lookupA m k = some b ∧ p = (k, b.filter (· ≠ id)) := by
  induction m with
  | nil => simp [mretain] at h
  | cons hd tl ih =>
    obtain ⟨k', b⟩ := hd
    simp only [keysNodup, List.map_cons, List.nodup_cons] at hnd
    by_cases hk : k' = k
    · subst hk
      simp [mretain] at h
      rcases h with h0 | h0
      · exact Or.inr ⟨b, by simp [lookupA], by simpa using h0⟩
      · refine Or.inl ⟨List.mem_cons_of_mem _ h0, ?_⟩
        intro hfst
        refine hnd.1 (List.mem_map.mpr ⟨p, h0, hfst⟩)
    · simp [mretain, hk] at h
      rcases h with h0 | h0
      · refine Or.inl ⟨h0 ▸ List.mem_cons_self _ _, by rw [h0]; exact hk⟩
      · rcases ih hnd.2 h0 with h1 | h1
        · exact Or.inl ⟨List.mem_cons_of_mem _ h1.1, h1.2⟩
        · rcases h1 with ⟨b0, hb0, hp⟩
          exact Or.inr ⟨b0, by simp [lookupA, hk, hb0], hp⟩

theorem mretain_minsert_present {m : List (String × List Nat)} {k : String} {id : Nat}
    {b : List Nat} (hb : lookupA m k = some b) (hid : id ∉ b) :
    mretain (minsert m k id) k id = m := by
  induction m with
  | nil => simp [lookupA] at hb
  | cons hd tl ih =>
    obtain ⟨k', b'⟩ := hd
    by_cases hk : k' = k
    · subst hk
      have hb' : b' = b := by simpa [lookupA] using hb
      subst hb'
      have h1 : minsert ((k', b') :: tl) k' id = (k', b' ++ [id]) :: tl := by simp [minsert]
      rw [h1]
      have h2 : mretain ((k', b' ++ [id]) :: tl) k' id =
          (k', (b' ++ [id]).filter (· ≠ id)) :: tl := by simp [mretain]
      rw [h2]
      have h3 : (b' ++ [id]).filter (· ≠ id) = b' := by
        rw [List.filter_append]
        have h4 : b'.filter (· ≠ id) = b' :=
          List.filter_eq_self.mpr (fun a ha => by
            simp only [ne_eq, decide_not, Bool.not_eq_true', decide_eq_false_iff_not]
            intro he
            exact hid (he ▸ ha))
        simp [h4]
        intro a ha he
        exact hid (he ▸ ha)
      rw [h3]
    · simp only [lookupA, if_neg hk] at hb
      simp [minsert, mretain, hk, ih hb]

theorem mretain_minsert_absent {m : List (String × List Nat)} {k : String} (id : Nat)
    (h : lookupA m k = none) : mretain (minsert m k id) k id = m ++ [(k, [])] := by
  induction m with
  | nil => simp [minsert, mretain]
  | cons hd tl ih =>
    obtain ⟨k', b'⟩ := hd
    by_cases hk : k' = k
    · simp [lookupA, hk] at h
    · simp only [lookupA, if_neg hk] at h
      simp [minsert, mretain, hk, ih h]

/-! Invariant preservation. -/

theorem strongInv_implies_invariant {s : ServicesInner} (h : StrongInv s) : Invariant s := by
  obtain ⟨-, -, -, h4, h5, h6, -⟩ := h
  refine ⟨h4, ?_, ?_⟩
  · intro q hq
    have := h5 q hq
    rw [nameAt] at this
    cases hl : lookupA s.by_id q.2 with
    | none => rw [hl] at this; exact Option.noConfusion this
    | some w => simp
  · intro b hb i hi
    have := h6 b hb i hi
    rw [typAt] at this
    cases hl : lookupA s.by_id i with
    | none => rw [hl] at this; exact Option.noConfusion this
    | some w => simp

theorem strongInv_new (hostname : String) : StrongInv (ServicesInner.new hostname) := by
  refine ⟨?_, ?_, ?_, ?_, ?_, ?_, ?_⟩ <;> simp [ServicesInner.new, keysNodup]

theorem strongInv_register {s : ServicesInner} {svc : ServiceData} {id : Nat}
    (hI : StrongInv s) (hfresh : lookupA s.by_id id = none)
    (hname : lookupA s.by_name svc.name = none) :
    StrongInv (registerWith s svc id) := by
  obtain ⟨h1, h2, h3, h4, h5, h6, h7⟩ := hI
  have hidmem : ∀ p ∈ s.by_id, p.1 ≠ id := (lookupA_eq_none s.by_id id).mp hfresh
  refine ⟨keysNodup_insertA id svc h1, keysNodup_insertA svc.name id h2,
    keysNodup_minsert id h3, ?_, ?_, ?_, ?_⟩
  · -- every entry of the new by_id is indexed by by_name and by_type
    intro p hp
    rw [registerWith] at hp
    simp only at hp
    rw [insertA_of_absent svc hfresh] at hp
    rcases List.mem_append.mp hp with hp0 | hp0
    · obtain ⟨ha, hb⟩ := h4 p hp0
      constructor
      · have hne : p.2.name ≠ svc.name := by
          intro he
          rw [he, hname] at ha
          exact Option.noConfusion ha
        rw [registerWith]
        simp only
        rw [lookupA_insertA_ne _ _ hne, ha]
      · rw [registerWith]
        simp only
        by_cases ht : p.2.typ = svc.typ
        · rw [ht, lookupA_minsert_self]
          simp only [Option.getD_some]
          exact List.mem_append.mpr (Or.inl (ht ▸ hb))
        · rw [lookupA_minsert_ne _ _ ht]
          exact hb
    · have hp1 : p = (id, svc) := by simpa using hp0
      subst hp1
      constructor
      · rw [registerWith]
        simp only
        exact lookupA_insertA_self _ _ _
      · rw [registerWith]
        simp only
        rw [lookupA_minsert_self]
        simp
  · -- every by_name entry points back at a service of that name
    intro q hq
    rw [registerWith] at hq
    simp only at hq
    rw [insertA_of_absent id hname] at hq
    rcases List.mem_append.mp hq with hq0 | hq0
    · have hold := h5 q hq0
      rw [nameAt] at hold
      have hqne : q.2 ≠ id := by
        intro he
        rw [he, hfresh] at hold
        exact Option.noConfusion hold
      rw [nameAt, registerWith]
      simp only
      rw [lookupA_insertA_ne _ _ hqne]
      exact hold
    · have hq1 : q = (svc.name, id) := by simpa using hq0
      subst hq1
      rw [nameAt, registerWith]
      simp only
      rw [lookupA_insertA_self]
      rfl
  · -- every by_type bucket holds ids of services of that type
    intro b hb i hi
    rw [registerWith] at hb
    simp only at hb
    have htypAt : typAt (registerWith s svc id) id = some svc.typ := by
      rw [typAt, registerWith]
      simp only
      rw [lookupA_insertA_self]
      rfl
    have hpreserve : ∀ j, lookupA s.by_id j ≠ none →
        typAt (registerWith s svc id) j = typAt s j := by
      intro j hj
      have hjne : j ≠ id := by
        intro he
        exact hj (he ▸ hfresh)
      rw [typAt, typAt, registerWith]
      simp only
      rw [lookupA_insertA_ne _ _ hjne]
    rcases mem_minsert_cases hb with hb0 | hb0 | hb0
    · have hold := h6 b hb0 i hi
      have hsome : lookupA s.by_id i ≠ none := by
        rw [typAt] at hold
        intro he
        rw [he] at hold
        exact Option.noConfusion hold
      rw [hpreserve i hsome]
      exact hold
    · rcases hb0 with ⟨b0, hb0m, hbeq⟩
      subst hbeq
      simp only at hi ⊢
      rcases List.mem_append.mp hi with hi0 | hi0
      · have hold := h6 (svc.typ, b0) hb0m i hi0
        have hsome : lookupA s.by_id i ≠ none := by
          rw [typAt] at hold
          intro he
          rw [he] at hold
          exact Option.noConfusion hold
        rw [hpreserve i hsome]
        exact hold
      · have : i = id := by simpa using hi0
        subst this
        exact htypAt
    · subst hb0
      have : i = id := by simpa using hi
      subst this
      exact htypAt
  · -- buckets stay duplicate-free
    intro b hb
    rw [registerWith] at hb
    simp only at hb
    have hfreshBucket : ∀ b0 ∈ s.by_type, id ∉ b0.2 := by
      intro b0 hb0 hmem
      have := h6 b0 hb0 id hmem
      rw [typAt, hfresh] at this
      exact Option.noConfusion this
    rcases mem_minsert_cases hb with hb0 | hb0 | hb0
    · exact h7 b hb0
    · rcases hb0 with ⟨b0, hb0m, hbeq⟩
      subst hbeq
      simp only
      rw [List.nodup_append]
      refine ⟨h7 (svc.typ, b0) hb0m, List.nodup_singleton _, ?_⟩
      intro a ha hamem
      have : a = id := by simpa using hamem
      subst this
      exact hfreshBucket (svc.typ, b0) hb0m ha
    · subst hb0
      simp

theorem strongInv_unregister {s s' : ServicesInner} {svc : ServiceData} {id : Nat}
    (hI : StrongInv s) (h : s.unregister id = some (svc, s')) : StrongInv s' := by
  obtain ⟨h1, h2, h3, h4, h5, h6, h7⟩ := hI
  rw [ServicesInner.unregister] at h
  split at h
  next hlook => exact Option.noConfusion h
  next svc0 hlook =>
    split at h
    next hnm =>
      have hpair := Option.some_inj.mp h
      have he1 : svc0 = svc := congrArg Prod.fst hpair
      have he2 := congrArg Prod.snd hpair
      simp only at he2
      subst he1
      subst he2
      refine ⟨keysNodup_eraseA id h1, keysNodup_eraseA svc0.name h2,
        keysNodup_mretain svc0.typ id h3, ?_, ?_, ?_, ?_⟩
      · intro p hp
        simp only at hp ⊢
        obtain ⟨hpm, hpne⟩ := mem_eraseA_nodup h1 hp
        obtain ⟨ha, hb⟩ := h4 p hpm
        constructor
        · have hne : p.2.name ≠ svc0.name := by
            intro he
            rw [he, hnm] at ha
            exact hpne (by simpa using ha.symm)
          rw [lookupA_eraseA_ne _ hne]
          exact ha
        · by_cases ht : p.2.typ = svc0.typ
          · rw [ht, lookupA_mretain_self]
            cases hbk : lookupA s.by_type svc0.typ with
            | none =>
              rw [ht, hbk] at hb
              simp at hb
            | some bucket =>
              rw [ht, hbk] at hb
              simp only [Option.getD_some] at hb
              simp only [Option.map_some', Option.getD_some]
              rw [List.mem_filter]
              exact ⟨hb, by simpa using hpne⟩
          · rw [lookupA_mretain_ne _ _ ht]
            exact hb
      · intro q hq
        simp only at hq ⊢
        obtain ⟨hqm, hqne⟩ := mem_eraseA_nodup h2 hq
        have hold := h5 q hqm
        have hq2 : q.2 ≠ id := by
          intro he
          rw [nameAt, he, hlook] at hold
          exact hqne (by simpa using hold.symm)
        rw [nameAt]
        simp only
        rw [lookupA_eraseA_ne _ hq2]
        exact hold
      · intro b hb i hi
        simp only at hb ⊢
        have hpreserve : ∀ j, j ≠ id → typAt
            { hostname := s.hostname, by_id := eraseA s.by_id id,
              by_type := mretain s.by_type svc0.typ id,
              by_name := eraseA s.by_name svc0.name } j = typAt s j := by
          intro j hj
          rw [typAt, typAt]
          simp only
          rw [lookupA_eraseA_ne _ hj]
        rcases mem_mretain_nodup h3 hb with ⟨hbm, hbne⟩ | ⟨b0, hb0, hbeq⟩
        · have hold := h6 b hbm i hi
          have hine : i ≠ id := by
            intro he
            rw [he, typAt, hlook] at hold
            exact hbne (by simpa using hold.symm)
          rw [hpreserve i hine]
          exact hold
        · subst hbeq
          simp only at hi ⊢
          rw [List.mem_filter] at hi
          have hine : i ≠ id := by simpa using hi.2
          have hold := h6 (svc0.typ, b0) (lookupA_mem hb0) i hi.1
          rw [hpreserve i hine]
          exact hold
      · intro b hb
        simp only at hb
        rcases mem_mretain_nodup h3 hb with ⟨hbm, -⟩ | ⟨b0, hb0, hbeq⟩
        · exact h7 b hbm
        · subst hbeq
          exact List.Nodup.filter _ (h7 (svc0.typ, b0) (lookupA_mem hb0))
    next hnm => exact Option.noConfusion h

theorem runOps_strongInv {s s' : ServicesInner} {ops : List Op}
    (hI : StrongInv s) (h : runOps s ops = some s') : StrongInv s' := by
  induction ops generalizing s with
  | nil =>
    simp only [runOps, Option.some_inj] at h
    exact h ▸ hI
  | cons op rest ih =>
    cases op with
    | reg svc id =>
      rw [runOps] at h
      by_cases hc : lookupA s.by_id id = none ∧ lookupA s.by_name svc.name = none
      · rw [if_pos hc] at h
        exact ih (strongInv_register hI hc.1 hc.2) h
      · rw [if_neg hc] at h
        exact Option.noConfusion h
    | unreg id =>
      rw [runOps] at h
      cases hu : s.unregister id with
      | none => rw [hu] at h; exact Option.noConfusion h
      | some pair =>
        rw [hu] at h
        obtain ⟨svc0, s0⟩ := pair
        exact ih (strongInv_unregister hI hu) h

/-! Shared characterization lemmas. -/

theorem unregister_eq {s : ServicesInner} {id : Nat} {svc : ServiceData}
    (hid : lookupA s.by_id id = some svc)
    (hnm : lookupA s.by_name svc.name = some id) :
    s.unregister id = some (svc,
      { hostname := s.hostname, by_id := eraseA s.by_id id,
        by_type := mretain s.by_type svc.typ id,
        by_name := eraseA s.by_name svc.name }) := by
  rw [ServicesInner.unregister]
  split
  next heq => rw [hid] at heq; exact Option.noConfusion heq
  next w heq =>
    rw [hid] at heq
    have hw : w = svc := (Option.some_inj.mp heq).symm
    subst hw
    rw [if_pos hnm]

theorem unregister_none {s : ServicesInner} {id : Nat}
    (h : lookupA s.by_id id = none) : s.unregister id = none := by
  rw [ServicesInner.unregister]
  split
  next heq => rfl
  next w heq => rw [h] at heq; exact Option.noConfusion heq

theorem collectByType_all_some {s : ServicesInner} {ids : List Nat}
    (h : ∀ i ∈ ids, (lookupA s.by_id i).isSome) :
    collectByType s ids = ids.filterMap (fun i => lookupA s.by_id i) := by
  induction ids with
  | nil => rfl
  | cons i rest ih =>
    have hi := h i (List.mem_cons_self _ _)
    cases hl : lookupA s.by_id i with
    | none => rw [hl] at hi; simp at hi
    | some w =>
      simp only [collectByType, hl, List.filterMap_cons, Option.isSome]
      exact congrArg (List.cons w) (ih (fun j hj => h j (List.mem_cons_of_mem _ hj)))

theorem encodeEntries_none {txt : List (List Nat)} {e : List Nat}
    (he : e ∈ txt) (hlen : 255 < e.length) : encodeEntries txt = none := by
  induction txt with
  | nil => simp at he
  | cons a l ih =>
    rw [encodeEntries]
    by_cases ha : 255 < a.length
    · rw [if_pos ha]
    · rw [if_neg ha]
      rcases List.mem_cons.mp he with h0 | h0
      · exact absurd (h0 ▸ hlen) ha
      · rw [ih h0]
        rfl

theorem build_txt_record_none {txt : List (List Nat)} {e : List Nat}
    (he : e ∈ txt) (hlen : 255 < e.length) : build_txt_record txt = none := by
  rw [build_txt_record]
  cases txt with
  | nil => simp at he
  | cons a l =>
    rw [if_neg (by simp : ¬((a :: l).isEmpty = true))]
    exact encodeEntries_none he hlen

theorem encodeEntries_all_ok {txt : List (List Nat)}
    (h : ∀ e ∈ txt, e.length ≤ 255) :
    encodeEntries txt = some ((txt.map (fun e => e.length :: e)).flatten) := by
  induction txt with
  | nil => rfl
  | cons a l ih =>
    have ha : ¬(255 < a.length) := not_lt.mpr (h a (List.mem_cons_self _ _))
    rw [encodeEntries, if_neg ha, ih (fun e he => h e (List.mem_cons_of_mem _ he))]
    simp

/-! Test fixtures used by witnesses and counterexamples. -/

/-- A concrete HTTP service record. -/
def svcA : ServiceData :=
  { name := "a._http._tcp.local", typ := "_http._tcp.local", port := 80, txt := [0] }

/-- A second, distinct concrete HTTP service record. -/
def svcB : ServiceData :=
  { name := "b._http._tcp.local", typ := "_http._tcp.local", port := 81, txt := [0] }

/-- A concrete responder with an empty registry and two FSM channels
(IPv4 and IPv6), as built by `Responder::with_handle`. -/
def responder0 : Responder :=
  { services := ServicesInner.new "host.local", commands := ⟨[[], []]⟩ }

/-- The trace register(svcA) → id 0, unregister 0, register(svcB) → id 0
again: the random draw is free to return a previously freed id. -/
def opsC3 : List Op := [Op.reg svcA 0, Op.unreg 0, Op.reg svcB 0]

/-- The registry state after registering `svcA` under id 0 in a fresh
registry. -/
def s1 : ServicesInner :=
  { hostname := "host.local", by_id := [(0, svcA)],
    by_type := [("_http._tcp.local", [0])], by_name := [("a._http._tcp.local", 0)] }

/-! Claim theorems. -/

/-- C1: for every sequence of register and unregister operations on a
registry (pairwise-distinct instance names, unregister applied only to
ids currently present), the three-way index invariant holds after each
operation.  The theorem quantifies over all accepted traces from a fresh
registry; the state after the k-th operation of any trace is the final
state of its length-k prefix, which is itself such a trace. -/
theorem C1_three_way_invariant {hostname : String} {ops : List Op} {s : ServicesInner}
    (h : runOps (ServicesInner.new hostname) ops = some s) : Invariant s :=
  strongInv_implies_invariant (runOps_strongInv (strongInv_new hostname) h)

/-- Witness for C1 at the concrete trace register(svcA)@0 then
unregister(0) from a fresh registry. -/
theorem C1_witness :
    runOps (ServicesInner.new "host.local") [Op.reg svcA 0, Op.unreg 0] =
      some { hostname := "host.local", by_id := [],
             by_type := [("_http._tcp.local", [])], by_name := [] } ∧
    Invariant { hostname := "host.local", by_id := [],
                by_type := [("_http._tcp.local", [])], by_name := [] } :=
  ⟨by decide, @C1_three_way_invariant "host.local" [Op.reg svcA 0, Op.unreg 0] _ (by decide)⟩

/-- C3 counterexample: the code only redraws a random id while it collides
with a key currently in `by_id`, so after an unregister the same id can be
returned again for a different service.  The concrete trace
register(svcA)@0, unregister(0), register(svcB)@0 is accepted by the code
(`runOps` succeeds) yet hands out id 0 twice for the distinct services
svcA and svcB, refuting the claim that an id is never returned again for
a different service within the registry's lifetime. -/
theorem C3_counterexample :
    ¬ ((runOps (ServicesInner.new "host.local") opsC3).isSome = true →
       (regPairs opsC3).Pairwise (fun p q => p.2 ≠ q.2 → p.1 ≠ q.1)) := by
  decide

/-- C3 amended: what the code does guarantee is freshness among live
services: in every reachable registry state the keys of `by_id` are
pairwise distinct, i.e. an id handed out by register is never the id of
another service registered at the same time.  After an unregister the id
may be drawn again. -/
theorem C3_no_live_id_reuse {hostname : String} {ops : List Op} {s : ServicesInner}
    (h : runOps (ServicesInner.new hostname) ops = some s) : keysNodup s.by_id :=
  (runOps_strongInv (strongInv_new hostname) h).1

/-- Witness for the amended C3 at the concrete trace register(svcA)@0. -/
theorem C3_witness :
    runOps (ServicesInner.new "host.local") [Op.reg svcA 0] = some s1 ∧
    keysNodup s1.by_id :=
  ⟨by decide, @C3_no_live_id_reuse "host.local" [Op.reg svcA 0] s1 (by decide)⟩

/-- C7: for entries each at most 255 bytes, `build_txt_record` yields a
single zero byte for an empty entry list and otherwise the concatenation,
in order, of one length byte followed by the entry's bytes. -/
theorem C7_txt_encoding {entries : List (List Nat)}
    (h : ∀ e ∈ entries, e.length ≤ 255) :
    build_txt_record entries =
      some (if entries.isEmpty then [0]
            else (entries.map (fun e => e.length :: e)).flatten) := by
  rw [build_txt_record]
  cases entries with
  | nil => rfl
  | cons a l =>
    simp only [List.isEmpty_cons, Bool.false_eq_true, if_false]
    exact encodeEntries_all_ok h

/-- Witness for C7 at the concrete entry list [[112, 97]]. -/
theorem C7_witness :
    (∀ e ∈ ([[112, 97]] : List (List Nat)), e.length ≤ 255) ∧
    build_txt_record [[112, 97]] =
      some (if ([[112, 97]] : List (List Nat)).isEmpty then [0]
            else (([[112, 97]] : List (List Nat)).map (fun e => e.length :: e)).flatten) :=
  ⟨by decide, C7_txt_encoding (by decide)⟩

/-- C8: programmer errors fail loudly and leave no trace: register with a
TXT entry longer than 255 bytes panics (returns `none`) before any
announce command is sent and before the registry is touched (the panic
happens inside `build_txt_record`, which runs first), and unregister of
an unknown id panics with the registry unchanged (the failing `expect`
runs before any mutation). -/
theorem C8_programmer_errors :
    (∀ (r : Responder) (ty nm : String) (port : Nat) (txt : List (List Nat)) (id : Nat)
        (e : List Nat), e ∈ txt → 255 < e.length →
        r.register ty nm port txt id = none) ∧
    (∀ (s : ServicesInner) (id : Nat), lookupA s.by_id id = none →
        s.unregister id = none) := by
  constructor
  · intro r ty nm port txt id e he hlen
    rw [Responder.register, build_txt_record_none he hlen]
  · intro s id h
    exact unregister_none h

/-- Witness for C8: a 256-byte TXT entry and an unregister of id 5 on a
fresh registry. -/
theorem C8_witness :
    Responder.register responder0 "_http._tcp" "x" 1 [List.replicate 256 0] 0 = none ∧
    (ServicesInner.new "host.local").unregister 5 = none :=
  ⟨C8_programmer_errors.1 responder0 "_http._tcp" "x" 1 [List.replicate 256 0] 0
      (List.replicate 256 0) (List.mem_singleton.mpr rfl)
      (by rw [List.length_replicate]; exact Nat.lt_succ_self 255),
   C8_programmer_errors.2 (ServicesInner.new "host.local") 5 (by decide)⟩

/-- C9: dropping a registered service handle removes exactly the stored
`ServiceData` from the registry and appends exactly one goodbye command
(`SendUnsolicited` with that service, ttl 0, include_ip false) to every
FSM command channel. -/
theorem C9_goodbye_on_drop {hostname : String} {ops : List Op} {s : ServicesInner}
    {cs : CommandSender} {id : Nat} {svc : ServiceData}
    (h : runOps (ServicesInner.new hostname) ops = some s)
    (hid : lookupA s.by_id id = some svc) :
    ∃ s', dropService s cs id =
      some (s', ⟨cs.channels.map (fun ch => ch ++ [Command.sendUnsolicited svc 0 false])⟩) := by
  have hI := strongInv_implies_invariant (runOps_strongInv (strongInv_new hostname) h)
  obtain ⟨h4, -, -⟩ := hI
  have hnm := (h4 (id, svc) (lookupA_mem hid)).1
  refine ⟨{ hostname := s.hostname
            by_id := eraseA s.by_id id
            by_type := mretain s.by_type svc.typ id
            by_name := eraseA s.by_name svc.name }, ?_⟩
  rw [dropService, unregister_eq hid hnm]
  rfl

/-- Witness for C9 at the state with svcA registered under id 0 and two
FSM channels. -/
theorem C9_witness :
    runOps (ServicesInner.new "host.local") [Op.reg svcA 0] = some s1 ∧
    lookupA s1.by_id 0 = some svcA ∧
    ∃ s', dropService s1 ⟨[[], []]⟩ 0 =
      some (s', ⟨([[], []] : List (List Command)).map
        (fun ch => ch ++ [Command.sendUnsolicited svcA 0 false])⟩) :=
  ⟨by decide, by decide,
   @C9_goodbye_on_drop "host.local" [Op.reg svcA 0] s1 ⟨[[], []]⟩ 0 svcA (by decide) (by decide)⟩

/-- C10: under the three-way index invariant, unregister of a present id
cannot panic: the `by_id` removal succeeds and the `by_name` removal
yields exactly `Some(id)`, so the consistency assertion is unreachable. -/
theorem C10_unregister_total {s : ServicesInner} {id : Nat} {svc : ServiceData}
    (hI : Invariant s) (hid : lookupA s.by_id id = some svc) :
    ∃ s', s.unregister id = some (svc, s') := by
  obtain ⟨h4, -, -⟩ := hI
  exact ⟨_, unregister_eq hid (h4 (id, svc) (lookupA_mem hid)).1⟩

/-- Witness for C10 at the state with svcA registered under id 0. -/
theorem C10_witness :
    Invariant s1 ∧ lookupA s1.by_id 0 = some svcA ∧
    ∃ s', s1.unregister 0 = some (svcA, s') :=
  ⟨by unfold Invariant; decide, by decide,
   @C10_unregister_total s1 0 svcA (by unfold Invariant; decide) (by decide)⟩

/-- Counting occurrences through the bucket lookup: when every id of the
bucket resolves and resolution is injective towards the distinguished
entry, counting the service equals counting its id. -/
theorem count_filterMap_lookup {s : ServicesInner} {p : Nat × ServiceData}
    (hiff : ∀ i w, lookupA s.by_id i = some w → (w = p.2 ↔ i = p.1)) :
    ∀ b : List Nat, (∀ i ∈ b, (lookupA s.by_id i).isSome) →
      (b.filterMap (fun i => lookupA s.by_id i)).count p.2 = b.count p.1 := by
  intro b
  induction b with
  | nil => intro _; rfl
  | cons i rest ih =>
    intro hsome
    have hi := hsome i (List.mem_cons_self _ _)
    cases hl : lookupA s.by_id i with
    | none => rw [hl] at hi; simp at hi
    | some w =>
      have hrest := ih (fun j hj => hsome j (List.mem_cons_of_mem _ hj))
      simp only [List.filterMap_cons, hl, List.count_cons, hrest]
      have hiw := hiff i w hl
      by_cases hwp : w = p.2
      · simp [hwp, hiw.mp hwp]
      · have hip : ¬(i = p.1) := fun he => hwp (hiw.mpr he)
        simp [hwp, hip]

/-- C2 counterexample: registering a service of a previously-unseen type
into a fresh registry and immediately unregistering it returns the equal
`ServiceData` but does not restore the registry to its prior state: the
`MultiMap`'s `retain` leaves an empty `by_type` bucket for the new type
behind, so the resulting state differs from the initial one. -/
theorem C2_counterexample :
    (registerWith (ServicesInner.new "host.local") svcA 0).unregister 0 ≠
      some (svcA, ServicesInner.new "host.local") := by
  decide

/-- C2 amended: under the registry invariant, registering a service with
a fresh id and an unregistered instance name and then unregistering the
returned id yields the equal `ServiceData`, restores `by_id` and
`by_name` exactly, and restores `by_type` exactly when the service's type
already had a bucket; when the type was new, an empty bucket for it is
left behind (all lookups and iterations behave as before). -/
theorem C2_register_unregister {s : ServicesInner} {svc : ServiceData} {id : Nat}
    (hI : StrongInv s) (hfresh : lookupA s.by_id id = none)
    (hname : lookupA s.by_name svc.name = none) :
    (registerWith s svc id).unregister id =
      some (svc,
        { hostname := s.hostname
          by_id := s.by_id
          by_type := match lookupA s.by_type svc.typ with
                     | some _ => s.by_type
                     | none => s.by_type ++ [(svc.typ, [])]
          by_name := s.by_name }) := by
  obtain ⟨-, -, -, -, -, h6, -⟩ := hI
  have hid' : lookupA (registerWith s svc id).by_id id = some svc :=
    lookupA_insertA_self _ _ _
  have hnm' : lookupA (registerWith s svc id).by_name svc.name = some id :=
    lookupA_insertA_self _ _ _
  rw [unregister_eq hid' hnm']
  have hbyid : eraseA (insertA s.by_id id svc) id = s.by_id := eraseA_insertA svc hfresh
  have hbyname : eraseA (insertA s.by_name svc.name id) svc.name = s.by_name :=
    eraseA_insertA id hname
  have hbytype : mretain (minsert s.by_type svc.typ id) svc.typ id =
      (match lookupA s.by_type svc.typ with
       | some _ => s.by_type
       | none => s.by_type ++ [(svc.typ, [])]) := by
    cases hbk : lookupA s.by_type svc.typ with
    | some b =>
      have hidb : id ∉ b := by
        intro hmem
        have := h6 (svc.typ, b) (lookupA_mem hbk) id hmem
        rw [typAt, hfresh] at this
        exact Option.noConfusion this
      rw [mretain_minsert_present hbk hidb]
    | none => rw [mretain_minsert_absent id hbk]
  simp only [registerWith]
  rw [hbyid, hbyname, hbytype]

/-- Witness for the amended C2 at a fresh registry and service svcA with
id 0. -/
theorem C2_witness :
    StrongInv (ServicesInner.new "host.local") ∧
    lookupA (ServicesInner.new "host.local").by_id 0 = none ∧
    lookupA (ServicesInner.new "host.local").by_name svcA.name = none ∧
    (registerWith (ServicesInner.new "host.local") svcA 0).unregister 0 =
      some (svcA,
        { hostname := "host.local"
          by_id := []
          by_type := [("_http._tcp.local", [])]
          by_name := [] }) :=
  ⟨by unfold StrongInv keysNodup; decide, by decide, by decide,
   @C2_register_unregister (ServicesInner.new "host.local") svcA 0
     (by unfold StrongInv keysNodup; decide) (by decide) (by decide)⟩

/-- The service record that `register("_http._tcp", "My Web", 8080,
["path=/"])` actually builds: the TXT length prefix is 6, because
"path=/" is six bytes. -/
def svcWeb : ServiceData :=
  { name := "My Web._http._tcp.local", typ := "_http._tcp.local", port := 8080,
    txt := [6, 112, 97, 116, 104, 61, 47] }

/-- The same record as `Responder::register` literally assembles it, with
unevaluated string concatenations. -/
def svcWebApp : ServiceData :=
  { typ := "_http._tcp" ++ ".local", name := "My Web" ++ "." ++ "_http._tcp" ++ ".local",
    port := 8080, txt := [6, 112, 97, 116, 104, 61, 47] }

/-- C4 counterexample: the announcement produced by
register("_http._tcp", "My Web", 8080, ["path=/"]) does not carry the
claimed TXT bytes [5, 'p','a','t','h','=','/'].  The entry "path=/" is
six bytes, so the length prefix is 6, not 5 (see the amended theorem for
the exact bytes). -/
theorem C4_counterexample :
    (Responder.register responder0 "_http._tcp" "My Web" 8080
        [[112, 97, 116, 104, 61, 47]] 0).map (fun p => p.1.commands.channels) ≠
      some (responder0.commands.channels.map (fun ch => ch ++
        [Command.sendUnsolicited
          { name := "My Web._http._tcp.local", typ := "_http._tcp.local", port := 8080,
            txt := [5, 112, 97, 116, 104, 61, 47] } 60 true])) := by
  decide

/-- C4 amended: the announcement sent to every FSM channel by
register("_http._tcp", "My Web", 8080, ["path=/"]) carries the TXT byte
sequence [6, 'p','a','t','h','=','/'] — one length byte (6) followed by
the six entry bytes. -/
theorem C4_txt_announcement {r r' : Responder} {id rid : Nat}
    (h : r.register "_http._tcp" "My Web" 8080 [[112, 97, 116, 104, 61, 47]] id =
      some (r', rid)) :
    r'.commands.channels = r.commands.channels.map (fun ch => ch ++
      [Command.sendUnsolicited svcWeb 60 true]) := by
  have hval : Responder.register r "_http._tcp" "My Web" 8080
      [[112, 97, 116, 104, 61, 47]] id =
      some ({ services := registerWith r.services svcWebApp id
              commands := r.commands.send_unsolicited svcWebApp DEFAULT_TTL true }, id) := rfl
  rw [hval] at h
  have hr := congrArg Prod.fst (Option.some_inj.mp h)
  simp only at hr
  rw [← hr]
  have hsvc : svcWebApp = svcWeb := by decide
  simp [CommandSender.send_unsolicited, CommandSender.send, DEFAULT_TTL, hsvc]

/-- Witness for the amended C4 at the concrete responder with two empty
channels. -/
theorem C4_witness :
    Responder.register responder0 "_http._tcp" "My Web" 8080
        [[112, 97, 116, 104, 61, 47]] 0 =
      some ({ services := registerWith responder0.services svcWeb 0
              commands := ⟨[[Command.sendUnsolicited svcWeb 60 true],
                            [Command.sendUnsolicited svcWeb 60 true]]⟩ }, 0) ∧
    ({ services := registerWith responder0.services svcWeb 0
       commands := ⟨[[Command.sendUnsolicited svcWeb 60 true],
                     [Command.sendUnsolicited svcWeb 60 true]]⟩ } : Responder).commands.channels =
      responder0.commands.channels.map (fun ch => ch ++
        [Command.sendUnsolicited svcWeb 60 true]) :=
  ⟨by decide,
   @C4_txt_announcement responder0
     { services := registerWith responder0.services svcWeb 0
       commands := ⟨[[Command.sendUnsolicited svcWeb 60 true],
                     [Command.sendUnsolicited svcWeb 60 true]]⟩ } 0 0 (by decide)⟩

/-- C5: in every reachable registry state, `find_by_name` returns exactly
the stored `ServiceData` for each registered service's instance name, and
returns `none` for a name no registered service bears. -/
theorem C5_find_by_name {hostname : String} {ops : List Op} {s : ServicesInner}
    (h : runOps (ServicesInner.new hostname) ops = some s) :
    (∀ p ∈ s.by_id, s.find_by_name p.2.name = some p.2) ∧
    (∀ n, (∀ p ∈ s.by_id, p.2.name ≠ n) → s.find_by_name n = none) := by
  obtain ⟨h1, -, -, h4, h5, -, -⟩ := runOps_strongInv (strongInv_new hostname) h
  constructor
  · intro p hp
    obtain ⟨ha, -⟩ := h4 p hp
    rw [ServicesInner.find_by_name, ha, Option.some_bind]
    exact mem_lookupA h1 hp
  · intro n hn
    rw [ServicesInner.find_by_name]
    cases hl : lookupA s.by_name n with
    | none => rfl
    | some i =>
      have h5n := h5 (n, i) (lookupA_mem hl)
      rw [nameAt] at h5n
      cases hid : lookupA s.by_id i with
      | none => rw [hid] at h5n; exact Option.noConfusion h5n
      | some w =>
        rw [hid] at h5n
        have hw : w.name = n := by simpa using h5n
        exact absurd hw (hn (i, w) (lookupA_mem hid))

/-- The registry state after registering `svcB` under id 0 in a fresh
registry. -/
def s2 : ServicesInner :=
  { hostname := "host.local", by_id := [(0, svcB)],
    by_type := [("_http._tcp.local", [0])], by_name := [("b._http._tcp.local", 0)] }

/-- Witness for C5: in the concrete reachable state with svcB registered,
`find_by_name` returns svcB for its instance name. -/
theorem C5_witness : s2.find_by_name "b._http._tcp.local" = some svcB :=
  (@C5_find_by_name "host.local" [Op.reg svcB 0] s2 (by decide)).1 (0, svcB) (by decide)

/-- C6: in every reachable registry state, each registered service of
type T occurs exactly once in `find_by_type T`, and every element of
`find_by_type T` has type T. -/
theorem C6_find_by_type {hostname : String} {ops : List Op} {s : ServicesInner}
    (h : runOps (ServicesInner.new hostname) ops = some s) :
    (∀ T, ∀ p ∈ s.by_id, p.2.typ = T → (s.find_by_type T).count p.2 = 1) ∧
    (∀ T, ∀ svc ∈ s.find_by_type T, svc.typ = T) := by
  obtain ⟨h1, -, -, h4, -, h6, h7⟩ := runOps_strongInv (strongInv_new hostname) h
  constructor
  · intro T p hp hT
    obtain ⟨-, hbTmem⟩ := h4 p hp
    rw [ServicesInner.find_by_type]
    cases hbk : lookupA s.by_type T with
    | none =>
      rw [hT, hbk] at hbTmem
      simp at hbTmem
    | some b =>
      rw [hT, hbk] at hbTmem
      simp only [Option.getD_some] at hbTmem ⊢
      have hsome : ∀ i ∈ b, (lookupA s.by_id i).isSome := by
        intro i hi
        have hty := h6 (T, b) (lookupA_mem hbk) i hi
        rw [typAt] at hty
        cases hl : lookupA s.by_id i with
        | none => rw [hl] at hty; exact Option.noConfusion hty
        | some w => simp
      rw [collectByType_all_some hsome]
      have hiff : ∀ i w, lookupA s.by_id i = some w → (w = p.2 ↔ i = p.1) := by
        intro i w hlw
        constructor
        · intro hwp
          have hni : lookupA s.by_name w.name = some i := (h4 (i, w) (lookupA_mem hlw)).1
          have hnp := (h4 p hp).1
          rw [hwp] at hni
          rw [hni] at hnp
          exact Option.some_inj.mp hnp
        · intro hip
          have hpl : lookupA s.by_id p.1 = some p.2 := by
            have hp' : (p.1, p.2) ∈ s.by_id := by
              obtain ⟨a, c⟩ := p
              exact hp
            exact mem_lookupA h1 hp'
          rw [hip, hpl] at hlw
          exact (Option.some_inj.mp hlw).symm
      rw [count_filterMap_lookup hiff b hsome]
      exact List.count_eq_one_of_mem (h7 (T, b) (lookupA_mem hbk)) hbTmem
  · intro T svc hsvc
    rw [ServicesInner.find_by_type] at hsvc
    cases hbk : lookupA s.by_type T with
    | none =>
      rw [hbk] at hsvc
      simp [collectByType] at hsvc
    | some b =>
      rw [hbk] at hsvc
      simp only [Option.getD_some] at hsvc
      have hsome : ∀ i ∈ b, (lookupA s.by_id i).isSome := by
        intro i hi
        have hty := h6 (T, b) (lookupA_mem hbk) i hi
        rw [typAt] at hty
        cases hl : lookupA s.by_id i with
        | none => rw [hl] at hty; exact Option.noConfusion hty
        | some w => simp
      rw [collectByType_all_some hsome] at hsvc
      rcases List.mem_filterMap.mp hsvc with ⟨i, hib, hlk⟩
      have hty := h6 (T, b) (lookupA_mem hbk) i hib
      rw [typAt, hlk] at hty
      simpa using hty

/-- Witness for C6: in the concrete reachable state with svcB registered,
svcB occurs exactly once in `find_by_type` of its type. -/
theorem C6_witness : (s2.find_by_type "_http._tcp.local").count svcB = 1 :=
  (@C6_find_by_type "host.local" [Op.reg svcB 0] s2 (by decide)).1
    "_http._tcp.local" (0, svcB) (by decide) (by decide)

end Mdns
